import Mathlib

/-!
Verification of the dotprompt repository's specification against shallow
embeddings of its source.

The file embeds, translated from the repository's source files:
  * `src/go/dotprompt/picoschema.go`  — the Picoschema → JSON-Schema transform
    (namespace `GoPico`), over a JSON-like value type mirroring Go's `any`
    as produced by YAML decoding;
  * `src/js/src/parse.ts`             — document parsing (frontmatter split,
    reserved-keyword partition, ext flattening) and the post-render message
    parser (namespace `JsParse`);
  * `src/js/src/environment.ts` and `src/js/src/util.ts` — metadata merging,
    tool resolution and the render pipeline (namespace `JsEnv`).

External dependencies (the YAML parser, the Handlebars engine) are not
repository code; they are taken as function parameters of the embedded
operations, so every theorem quantifies over their behaviour or fixes a
concrete oracle.
-/

/-- A JSON-like dynamic value: the image of Go's `any` (as decoded from YAML)
and of JavaScript values in the embedding.  Go `nil` / JS `null` is `.null`;
maps / objects are association lists in insertion order. -/
inductive JsonValue where
  | str (s : String)
  | num (n : Int)
  | bool (b : Bool)
  | null
  | arr (elems : List JsonValue)
  | obj (entries : List (String × JsonValue))

mutual

/-- Decidable equality on `JsonValue` (written by hand: `deriving` does not
handle nested inductives in this toolchain). -/
def JsonValue.decEq : (a b : JsonValue) → Decidable (a = b)
  | .str a, .str b =>
    if h : a = b then .isTrue (by rw [h]) else .isFalse (by simp [h])
  | .num a, .num b =>
    if h : a = b then .isTrue (by rw [h]) else .isFalse (by simp [h])
  | .bool a, .bool b =>
    if h : a = b then .isTrue (by rw [h]) else .isFalse (by simp [h])
  | .null, .null => .isTrue rfl
  | .arr a, .arr b =>
    match JsonValue.decEqList a b with
    | .isTrue h => .isTrue (by rw [h])
    | .isFalse h => .isFalse (by simp [h])
  | .obj a, .obj b =>
    match JsonValue.decEqEntries a b with
    | .isTrue h => .isTrue (by rw [h])
    | .isFalse h => .isFalse (by simp [h])
  | .str _, .num _ => .isFalse (fun h => JsonValue.noConfusion h)
  | .str _, .bool _ => .isFalse (fun h => JsonValue.noConfusion h)
  | .str _, .null => .isFalse (fun h => JsonValue.noConfusion h)
  | .str _, .arr _ => .isFalse (fun h => JsonValue.noConfusion h)
  | .str _, .obj _ => .isFalse (fun h => JsonValue.noConfusion h)
  | .num _, .str _ => .isFalse (fun h => JsonValue.noConfusion h)
  | .num _, .bool _ => .isFalse (fun h => JsonValue.noConfusion h)
  | .num _, .null => .isFalse (fun h => JsonValue.noConfusion h)
  | .num _, .arr _ => .isFalse (fun h => JsonValue.noConfusion h)
  | .num _, .obj _ => .isFalse (fun h => JsonValue.noConfusion h)
  | .bool _, .str _ => .isFalse (fun h => JsonValue.noConfusion h)
  | .bool _, .num _ => .isFalse (fun h => JsonValue.noConfusion h)
  | .bool _, .null => .isFalse (fun h => JsonValue.noConfusion h)
  | .bool _, .arr _ => .isFalse (fun h => JsonValue.noConfusion h)
  | .bool _, .obj _ => .isFalse (fun h => JsonValue.noConfusion h)
  | .null, .str _ => .isFalse (fun h => JsonValue.noConfusion h)
  | .null, .num _ => .isFalse (fun h => JsonValue.noConfusion h)
  | .null, .bool _ => .isFalse (fun h => JsonValue.noConfusion h)
  | .null, .arr _ => .isFalse (fun h => JsonValue.noConfusion h)
  | .null, .obj _ => .isFalse (fun h => JsonValue.noConfusion h)
  | .arr _, .str _ => .isFalse (fun h => JsonValue.noConfusion h)
  | .arr _, .num _ => .isFalse (fun h => JsonValue.noConfusion h)
  | .arr _, .bool _ => .isFalse (fun h => JsonValue.noConfusion h)
  | .arr _, .null => .isFalse (fun h => JsonValue.noConfusion h)
  | .arr _, .obj _ => .isFalse (fun h => JsonValue.noConfusion h)
  | .obj _, .str _ => .isFalse (fun h => JsonValue.noConfusion h)
  | .obj _, .num _ => .isFalse (fun h => JsonValue.noConfusion h)
  | .obj _, .bool _ => .isFalse (fun h => JsonValue.noConfusion h)
  | .obj _, .null => .isFalse (fun h => JsonValue.noConfusion h)
  | .obj _, .arr _ => .isFalse (fun h => JsonValue.noConfusion h)

/-- Decidable equality on lists of `JsonValue`. -/
def JsonValue.decEqList : (a b : List JsonValue) → Decidable (a = b)
  | [], [] => .isTrue rfl
  | [], _ :: _ => .isFalse (fun h => List.noConfusion h)
  | _ :: _, [] => .isFalse (fun h => List.noConfusion h)
  | x :: xs, y :: ys =>
    match JsonValue.decEq x y with
    | .isTrue h1 =>
      match JsonValue.decEqList xs ys with
      | .isTrue h2 => .isTrue (by rw [h1, h2])
      | .isFalse h2 => .isFalse (by simp [h2])
    | .isFalse h1 => .isFalse (by simp [h1])

/-- Decidable equality on association lists over `JsonValue`. -/
def JsonValue.decEqEntries :
    (a b : List (String × JsonValue)) → Decidable (a = b)
  | [], [] => .isTrue rfl
  | [], _ :: _ => .isFalse (fun h => List.noConfusion h)
  | _ :: _, [] => .isFalse (fun h => List.noConfusion h)
  | (k, v) :: xs, (k', v') :: ys =>
    if hk : k = k' then
      match JsonValue.decEq v v' with
      | .isTrue h1 =>
        match JsonValue.decEqEntries xs ys with
        | .isTrue h2 => .isTrue (by rw [hk, h1, h2])
        | .isFalse h2 => .isFalse (by simp [h2])
      | .isFalse h1 => .isFalse (by simp [h1])
    else .isFalse (by simp [hk])

end

instance : DecidableEq JsonValue := JsonValue.decEq

mutual

/-- Debug rendering of a `JsonValue` (stands in for Go's `%v` formatting). -/
def JsonValue.render : JsonValue → String
  | .str s => "str " ++ s
  | .num n => "num " ++ toString n
  | .bool b => "bool " ++ toString b
  | .null => "null"
  | .arr xs => "arr [" ++ JsonValue.renderList xs ++ "]"
  | .obj es => "obj [" ++ JsonValue.renderEntries es ++ "]"

/-- Debug rendering of a list of values. -/
def JsonValue.renderList : List JsonValue → String
  | [] => ""
  | [x] => x.render
  | x :: xs => x.render ++ ", " ++ JsonValue.renderList xs

/-- Debug rendering of an association list. -/
def JsonValue.renderEntries : List (String × JsonValue) → String
  | [] => ""
  | [(k, v)] => k ++ ": " ++ v.render
  | (k, v) :: xs => k ++ ": " ++ v.render ++ ", " ++ JsonValue.renderEntries xs

end

instance : Repr JsonValue := ⟨fun v _ => .text v.render⟩

/-- First-match lookup in an association list (Go map read / JS property read). -/
def alookup {α : Type} (k : String) : List (String × α) → Option α
  | [] => none
  | (k', v) :: rest => if k' = k then some v else alookup k rest

/-- Key assignment in an association list: replace the first binding of `k`
in place, or append a new binding (Go map write / JS property write; object
key order is preserved for existing keys, new keys go last). -/
def setKey {α : Type} (k : String) (v : α) : List (String × α) → List (String × α)
  | [] => [(k, v)]
  | (k', v') :: rest => if k' = k then (k, v) :: rest else (k', v') :: setKey k v rest

namespace GoPico

/-- Whitespace as trimmed by Go's `strings.TrimSpace` (ASCII portion). -/
def goIsSpace (c : Char) : Bool :=
  c = ' ' || c = '\t' || c = '\n' || c = '\r' || c = '\x0b' || c = '\x0c'

/-- Drop the longest suffix satisfying `p`. -/
def dropWhileEnd (p : Char → Bool) (cs : List Char) : List Char :=
  (cs.reverse.dropWhile p).reverse

/-- Go `strings.TrimSpace`. -/
def trimSpace (s : String) : String :=
  ⟨dropWhileEnd goIsSpace (s.data.dropWhile goIsSpace)⟩

/-- Split a character list at the first occurrence of `c`; `none` when `c`
does not occur.  Implements Go `strings.SplitN(s, c, 2)` and
`strings.Contains(s, c)` for a one-character separator. -/
def breakOnChar (c : Char) : List Char → Option (List Char × List Char)
  | [] => none
  | x :: xs =>
    if x = c then some ([], xs)
    else (breakOnChar c xs).map (fun p => (x :: p.1, p.2))

/-- Go `strings.HasSuffix s (String.singleton c)`. -/
def endsWithChar (c : Char) (s : String) : Bool :=
  match s.data.getLast? with
  | some c' => c' = c
  | none => false

/-- Go `strings.TrimSuffix s (String.singleton c)`. -/
def trimSuffixChar (c : Char) (s : String) : String :=
  if endsWithChar c s then ⟨s.data.dropLast⟩ else s

/-- `extractDescription` of picoschema.go: split `TYPE, DESCRIPTION` at the
first comma, trimming both halves; no comma means no description. -/
def extractDescription (input : String) : String × String :=
  match breakOnChar ',' input.data with
  | none => (input, "")
  | some (a, b) => (trimSpace ⟨a⟩, trimSpace ⟨b⟩)

/-- `JSONSchemaScalarTypes` of picoschema.go. -/
def JSONSchemaScalarTypes : List String :=
  ["string", "boolean", "null", "number", "integer", "any"]

/-- `WildcardPropertyName` of picoschema.go. -/
def WildcardPropertyName : String := "(*)"

/-- A JSON schema, Go's `map[string]any`, as an association list. -/
abbrev JSONSchema := List (String × JsonValue)

/-- Outcome of a failing Go execution path: an `error` return value, or a
runtime panic (such as a failed type assertion), which the embedding keeps
distinct because a panic is a crash, not a returned error. -/
inductive PicoErr where
  | err (msg : String)
  | goPanic (msg : String)
deriving DecidableEq, Repr

/-- `SchemaResolver`: may fail with an error, or report no schema (`nil`). -/
abbrev SchemaResolver := String → Except String (Option JSONSchema)

/-- `PicoschemaParser` of picoschema.go (`nil` resolver is `none`). -/
structure PicoschemaParser where
  schemaResolver : Option SchemaResolver

/-- `mustResolveSchema` of picoschema.go. -/
def mustResolveSchema (p : PicoschemaParser) (schemaName : String) :
    Except PicoErr JSONSchema :=
  match p.schemaResolver with
  | none => .error (.err ("Picoschema: unsupported scalar type " ++ schemaName))
  | some resolve =>
    match resolve schemaName with
    | .error e => .error (.err e)
    | .ok none =>
        .error (.err ("Picoschema: could not find schema with name " ++ schemaName))
    | .ok (some val) => .ok val

/-- `containsInterface` of picoschema.go (Go `==` against `nil` never panics
and holds exactly for a `nil` element). -/
def containsInterface (slice : List JsonValue) (item : JsonValue) : Bool :=
  slice.any (· == item)

/-- String sorting, Go `sort.Strings` (the sorting routine itself is Go
library code; any sort of the same list models it). -/
def sortStrings (l : List String) : List String :=
  l.insertionSort (fun a b => a.data ≤ b.data)

mutual

/-- `parsePico` of picoschema.go.  The Go `path ...string` parameter is
threaded there but never read, so it is omitted.  `createDeepCopy` (defined
outside picoschema.go) deep-copies a schema before mutation; in this pure
value embedding a deep copy is the value itself, so copies are elided and
the subsequent map writes are `setKey` on the copied value. -/
def parsePico (p : PicoschemaParser) : JsonValue → Except PicoErr JSONSchema
  | .str objStr =>
    let td := extractDescription objStr
    if !(JSONSchemaScalarTypes.contains td.1) then
      match mustResolveSchema p td.1 with
      | .error e => .error e
      | .ok resolvedSchema =>
        .ok (if td.2 ≠ "" then setKey "description" (.str td.2) resolvedSchema
             else resolvedSchema)
    else if td.1 = "any" then
      .ok (if td.2 ≠ "" then [("description", .str td.2)] else [])
    else
      .ok (if td.2 ≠ "" then [("type", .str td.1), ("description", .str td.2)]
           else [("type", .str td.1)])
  | .obj entries => do
    let (props, req, addl) ← parsePicoEntries p entries [] [] (.bool false)
    let front : JSONSchema := [("type", .str "object"), ("properties", .obj props)]
    if req.isEmpty then
      pure (front ++ [("additionalProperties", addl)])
    else
      pure (front ++ [("required", JsonValue.arr ((sortStrings req).map .str)),
                      ("additionalProperties", addl)])
  | other =>
    .error (.err ("Picoschema: only consists of objects and strings. Got: " ++
      other.render))

/-- One iteration of the `for key, value := range objMap` loop of `parsePico`:
processes a single entry, returning the updated `properties` map, `required`
list and `additionalProperties` value. -/
def parsePicoEntryStep (p : PicoschemaParser) (key : String) (value : JsonValue)
    (props : JSONSchema) (req : List String) (addl : JsonValue) :
    Except PicoErr (JSONSchema × List String × JsonValue) :=
  if key = WildcardPropertyName then do
    let parsedValue ← parsePico p value
    pure (props, req, .obj parsedValue)
  else
    match breakOnChar '(' key.data with
    | none =>
      let name := key
      let isOptional := endsWithChar '?' name
      let propertyName := trimSuffixChar '?' name
      let req' := if isOptional then req else req ++ [propertyName]
      do
        let prop ← parsePico p value
        let propCopy :=
          if isOptional then
            match alookup "type" prop with
            | some (.str propType) =>
              setKey "type" (.arr [.str propType, .str "null"]) prop
            | _ => prop
          else prop
        pure (setKey propertyName (.obj propCopy) props, req', addl)
    | some (namePart, parenPart) =>
      let name : String := ⟨namePart⟩
      let isOptional := endsWithChar '?' name
      let propertyName := trimSuffixChar '?' name
      let req' := if isOptional then req else req ++ [propertyName]
      let td := extractDescription (trimSuffixChar ')' ⟨parenPart⟩)
      do
        let newProp ←
          (match td.1 with
           | "array" => do
             let items ← parsePico p value
             pure (([("items", JsonValue.obj items),
                     ("type", if isOptional then JsonValue.arr [.str "array", .str "null"]
                              else .str "array")]) : JSONSchema)
           | "object" => do
             let prop ← parsePico p value
             pure (if isOptional then
                     setKey "type" (.arr [(alookup "type" prop).getD .null, .str "null"]) prop
                   else prop)
           | "enum" =>
             match value with
             | .arr enumValues =>
               let ev := if isOptional && !(containsInterface enumValues .null) then
                           enumValues ++ [.null]
                         else enumValues
               pure ([("enum", JsonValue.arr ev)] : JSONSchema)
             | _ =>
               .error (.goPanic
                 "interface conversion: the enum value is not a slice of any")
           | _ =>
             .error (.err ("Picoschema: parenthetical types must be object or array, got: "
               ++ td.1)))
        let newProp' := if td.2 ≠ "" then setKey "description" (.str td.2) newProp
                        else newProp
        pure (setKey propertyName (.obj newProp') props, req', addl)

/-- The `for key, value := range objMap` loop of `parsePico`, processing the
entries in sequence while accumulating the `properties` map, the `required`
list and the `additionalProperties` value. -/
def parsePicoEntries (p : PicoschemaParser) :
    List (String × JsonValue) → JSONSchema → List String → JsonValue →
    Except PicoErr (JSONSchema × List String × JsonValue)
  | [], props, req, addl => .ok (props, req, addl)
  | (key, value) :: rest, props, req, addl => do
    let (props', req', addl') ← parsePicoEntryStep p key value props req addl
    parsePicoEntries p rest props' req' addl'

end

/-- The fall-through tail of `Parse` for mapping input: the
`properties`-promotion branch, else the recursive `parsePico`. -/
def parseMapTail (p : PicoschemaParser) (schemaMap : List (String × JsonValue)) :
    Except PicoErr (Option JSONSchema) :=
  match alookup "properties" schemaMap with
  | some (.obj _) => .ok (some (setKey "type" (.str "object") schemaMap))
  | _ => (parsePico p (.obj schemaMap)).map some

/-- `Parse` of picoschema.go: top-level dispatch (`nil` pass-through, named or
scalar top-level strings, JSON-Schema-shaped mappings returned as-is, else
`parsePico`). -/
def Parse (p : PicoschemaParser) : JsonValue → Except PicoErr (Option JSONSchema)
  | .null => .ok none
  | .str schemaStr =>
    let td := extractDescription schemaStr
    if JSONSchemaScalarTypes.contains td.1 then
      .ok (some (if td.2 ≠ "" then [("type", .str td.1), ("description", .str td.2)]
                 else [("type", .str td.1)]))
    else
      match mustResolveSchema p td.1 with
      | .error e => .error e
      | .ok resolvedSchema =>
        .ok (some (if td.2 ≠ "" then setKey "description" (.str td.2) resolvedSchema
                   else resolvedSchema))
  | .obj schemaMap =>
    (match alookup "type" schemaMap with
     | some (.str schemaType) =>
       if (JSONSchemaScalarTypes ++ ["object", "array"]).contains schemaType then
         .ok (some schemaMap)
       else parseMapTail p schemaMap
     | _ => parseMapTail p schemaMap)
  | other => (parsePico p other).map some

/-- A parser with no schema resolver configured. -/
def noResolver : PicoschemaParser := ⟨none⟩

/-- A mapping already shaped like JSON Schema, as `Parse` tests it: its `type`
key holds a scalar / `object` / `array` type name, or its `properties` key
holds a mapping. -/
def isJsonSchemaShaped (m : List (String × JsonValue)) : Prop :=
  (∃ t, alookup "type" m = some (.str t) ∧
    (JSONSchemaScalarTypes ++ ["object", "array"]).contains t = true) ∨
  (∃ pm, alookup "properties" m = some (.obj pm))

/-- The property schema that the Go code produces for the key
`items?(array, list of items)` with value `"string"`. -/
def c3ItemsProp : JSONSchema :=
  [("items", .obj [("type", .str "string")]),
   ("type", .arr [.str "array", .str "null"]),
   ("description", .str "list of items")]

end GoPico

namespace JsParse

/-- JavaScript's whitespace class (`\s` in regexes and `String.trim`), ASCII
portion; the sources in play are ASCII. -/
def jsWs (c : Char) : Bool :=
  c = ' ' || c = '\t' || c = '\n' || c = '\r' || c = '\x0b' || c = '\x0c'

/-- JS `String.prototype.trim`. -/
def jsTrim (s : String) : String :=
  ⟨GoPico.dropWhileEnd jsWs (s.data.dropWhile jsWs)⟩

/-- Whether `p` is a prefix of `cs` (Boolean, kernel-reducible). -/
def listIsPrefix : List Char → List Char → Bool
  | [], _ => true
  | _ :: _, [] => false
  | a :: as, b :: bs => a = b && listIsPrefix as bs

/-- JS `String.prototype.startsWith`. -/
def strStartsWith (p s : String) : Bool := listIsPrefix p.data s.data

/-!
`FRONTMATTER_AND_BODY_REGEX = /^---\s*\n([\s\S]*?)\n---\s*\n([\s\S]*)$/`
from parse.ts, as an explicit backtracking matcher.  The engine's choice
order is: `\s*` greedy with backtracking into the following literal `\n`
(so: the newline candidates inside the maximal whitespace run, rightmost
first), the lazy group shortest-first, and the final `([\s\S]*)$` always
consumes the remainder.
-/

/-- Remainders after matching `\s*\n` at the front of `cs`, in the regex
engine's preference order (greedy `\s*`, backtracking into the `\n`). -/
def matchWsNl (cs : List Char) : List (List Char) :=
  let ws := cs.takeWhile jsWs
  (((List.range ws.length).filter (fun k => ws.get? k = some '\n')).reverse).map
    (fun k => cs.drop (k + 1))

/-- Given the text after the opening `---\s*\n`, find the lazy-shortest
frontmatter capture followed by `\n---\s*\n`, returning (frontmatter, body). -/
def findFmSplit (r₁ : List Char) : Option (List Char × List Char) :=
  (List.range (r₁.length + 1)).findSome? (fun i =>
    if listIsPrefix ['\n', '-', '-', '-'] (r₁.drop i) then
      (matchWsNl (r₁.drop (i + 4))).head?.map (fun body => (r₁.take i, body))
    else none)

/-- `extractFrontmatterAndBody` of parse.ts: apply the frontmatter regex; on
no match return empty frontmatter and body. -/
def extractFrontmatterAndBody (source : String) : String × String :=
  let cs := source.data
  if listIsPrefix ['-', '-', '-'] cs then
    match (matchWsNl (cs.drop 3)).findSome? findFmSplit with
    | some (fm, body) => (⟨fm⟩, ⟨body⟩)
    | none => ("", "")
  else ("", "")

/-- `RESERVED_METADATA_KEYWORDS` of parse.ts, exactly as listed there. -/
def RESERVED_METADATA_KEYWORDS : List String :=
  ["config", "description", "ext", "input", "model", "name",
   "output", "raw", "toolDefs", "tools", "variant", "version"]

/-- Split a key at its last `.`: `some (namespacePart, fieldPart)`, or `none`
when the key has no dot (JS `lastIndexOf` returning `-1`). -/
def lastDotSplit : List Char → Option (List Char × List Char)
  | [] => none
  | c :: rest =>
    match lastDotSplit rest with
    | some (a, b) => some (c :: a, b)
    | none => if c = '.' then some ([], rest) else none

/-- The extension-metadata object: namespaces to field maps. -/
abbrev ExtMap := List (String × List (String × JsonValue))

/-- `convertNamespacedEntryToNestedObject` of parse.ts. -/
def convertNamespacedEntryToNestedObject (key : String) (value : JsonValue)
    (obj : ExtMap) : ExtMap :=
  match lastDotSplit key.data with
  | some (ns, field) =>
    let nsS : String := ⟨ns⟩
    setKey nsS (setKey (⟨field⟩ : String) value ((alookup nsS obj).getD [])) obj
  | none =>
    setKey "" (setKey key value ((alookup "" obj).getD [])) obj

/-- `BASE_METADATA` of parse.ts. -/
def BASE_METADATA : List (String × JsonValue) :=
  [("ext", .obj []), ("metadata", .obj []), ("config", .obj [])]

/-- The `for (const k in raw)` partition loop of `parseDocument`: reserved
keys are copied into the pruned result, dotted keys flattened into `ext`,
anything else ignored. -/
def partitionEntries : List (String × JsonValue) → List (String × JsonValue) →
    ExtMap → List (String × JsonValue) × ExtMap
  | [], pruned, ext => (pruned, ext)
  | (k, v) :: rest, pruned, ext =>
    if RESERVED_METADATA_KEYWORDS.contains k then
      partitionEntries rest (setKey k v pruned) ext
    else if (lastDotSplit k.data).isSome then
      partitionEntries rest pruned (convertNamespacedEntryToNestedObject k v ext)
    else
      partitionEntries rest pruned ext

/-- Render the accumulated ext object as a JSON value. -/
def extToJson (ext : ExtMap) : JsonValue :=
  .obj (ext.map (fun nsf => (nsf.1, .obj nsf.2)))

/-- `parseDocument` of parse.ts.  The YAML library is external; `yamlParse`
stands for it, returning the parsed mapping or `none` on a parse error. -/
def parseDocument (yamlParse : String → Option (List (String × JsonValue)))
    (source : String) : List (String × JsonValue) :=
  let fmBody := extractFrontmatterAndBody source
  if fmBody.1 ≠ "" then
    match yamlParse fmBody.1 with
    | some raw =>
      let prunedExt := partitionEntries raw BASE_METADATA []
      setKey "template" (.str (jsTrim fmBody.2))
        (setKey "ext" (extToJson prunedExt.2)
          (setKey "raw" (.obj raw) prunedExt.1))
    | none => BASE_METADATA ++ [("template", .str (jsTrim source))]
  else BASE_METADATA ++ [("template", .str source)]

/-- `a` through `z`, the `[a-z]+` class of the role marker regex. -/
def lowerAlpha (c : Char) : Bool := 'a' ≤ c && c ≤ 'z'

/-- Match `ROLE_AND_HISTORY_MARKER_REGEX` at the head of `cs`: the capture
(without the closing `>>>`) and the remainder after the match.  The `role:`
branch is tried before `history`, as in the regex alternation. -/
def roleHistoryMatchAt (cs : List Char) : Option (List Char × List Char) :=
  if listIsPrefix "<<<dotprompt:role:".data cs then
    let after := cs.drop 18
    let run := after.takeWhile lowerAlpha
    if run.length > 0 && listIsPrefix ['>', '>', '>'] (after.drop run.length) then
      some ("<<<dotprompt:role:".data ++ run, after.drop (run.length + 3))
    else none
  else if listIsPrefix "<<<dotprompt:history>>>".data cs then
    some ("<<<dotprompt:history".data, cs.drop 23)
  else none

/-- Match `MEDIA_AND_SECTION_MARKER_REGEX`'s lazy `.*?>>>` tail: scan to the
first `>>>` without crossing a line terminator (`.` does not match them). -/
def scanToCloseNoNl : List Char → Option (List Char × List Char)
  | [] => none
  | c :: cs' =>
    if listIsPrefix ['>', '>', '>'] (c :: cs') then some ([], cs'.drop 2)
    else if c = '\n' || c = '\r' then none
    else (scanToCloseNoNl cs').map (fun p => (c :: p.1, p.2))

/-- Match `MEDIA_AND_SECTION_MARKER_REGEX` at the head of `cs`. -/
def mediaSectionMatchAt (cs : List Char) : Option (List Char × List Char) :=
  if listIsPrefix "<<<dotprompt:media:url".data cs then
    (scanToCloseNoNl (cs.drop 22)).map
      (fun p => ("<<<dotprompt:media:url".data ++ p.1, p.2))
  else if listIsPrefix "<<<dotprompt:section".data cs then
    (scanToCloseNoNl (cs.drop 20)).map
      (fun p => ("<<<dotprompt:section".data ++ p.1, p.2))
  else none

/-- Find the first marker match in `cs`: (text before, capture, remainder). -/
def findMarkerSplit (matchAt : List Char → Option (List Char × List Char)) :
    List Char → Option (List Char × List Char × List Char)
  | [] => none
  | c :: cs' =>
    match matchAt (c :: cs') with
    | some (cap, rest) => some ([], cap, rest)
    | none => (findMarkerSplit matchAt cs').map (fun t => (c :: t.1, t.2.1, t.2.2))

/-- JS `String.prototype.split` against a marker regex with one capture
group: pieces interleaved with the captures (fuelled; every match consumes
at least one character, so `length + 1` fuel always suffices). -/
def splitByMarkersGo (matchAt : List Char → Option (List Char × List Char)) :
    Nat → List Char → List String
  | 0, cs => [⟨cs⟩]
  | fuel + 1, cs =>
    match findMarkerSplit matchAt cs with
    | none => [⟨cs⟩]
    | some (before, cap, rest) =>
      ⟨before⟩ :: ⟨cap⟩ :: splitByMarkersGo matchAt fuel rest

/-- `splitByRoleAndHistoryMarkers` of parse.ts (split, then drop pieces that
are empty or whitespace-only). -/
def splitByRoleAndHistoryMarkers (s : String) : List String :=
  (splitByMarkersGo roleHistoryMatchAt (s.data.length + 1) s.data).filter
    (fun piece => jsTrim piece ≠ "")

/-- `splitByMediaAndSectionMarkers` of parse.ts. -/
def splitByMediaAndSectionMarkers (s : String) : List String :=
  (splitByMarkersGo mediaSectionMatchAt (s.data.length + 1) s.data).filter
    (fun piece => jsTrim piece ≠ "")

/-- JS `String.prototype.split(' ')` (keeps empty pieces). -/
def splitOnSpace : List Char → List (List Char)
  | [] => [[]]
  | c :: rest =>
    let r := splitOnSpace rest
    if c = ' ' then [] :: r
    else
      match r with
      | h :: t => (c :: h) :: t
      | [] => [[c]]

/-- A message content part, the tagged variants `toParts` produces: plain
text, a media reference (`url` may be JS-`undefined`, hence `Option`), or a
pending section (`metadata: {purpose, pending: true}`). -/
inductive Part where
  | text (t : String)
  | media (url : Option String) (contentType : Option String)
  | pendingSection (purpose : Option String)
deriving DecidableEq, Repr

/-- `toParts` of parse.ts. -/
def toParts (source : String) : List Part :=
  (splitByMediaAndSectionMarkers source).map (fun piece =>
    if strStartsWith "<<<dotprompt:media:" piece then
      let parts := (splitOnSpace piece.data).map (fun cs => (⟨cs⟩ : String))
      let url := parts.get? 1
      let contentType :=
        match parts.get? 2 with
        | some c => if c = "" then none else some c
        | none => none
      .media url contentType
    else if strStartsWith "<<<dotprompt:section" piece then
      let parts := (splitOnSpace piece.data).map (fun cs => (⟨cs⟩ : String))
      .pendingSection (parts.get? 1)
    else .text piece)

/-- A conversation message (types.ts `Message`). -/
structure Message where
  role : String
  content : List Part
  metadata : Option (List (String × JsonValue)) := none
deriving DecidableEq, Repr

/-- `transformMessagesToHistory` of parse.ts: tag each message with
`metadata.purpose = "history"`, preserving existing metadata. -/
def transformMessagesToHistory (messages : List Message) : List Message :=
  messages.map (fun m =>
    { m with metadata := some (setKey "purpose" (.str "history") (m.metadata.getD [])) })

/-- `insertHistory` of parse.ts: no-op when some message already carries
`purpose: "history"`; insert before a trailing user message; else append.
The inserted messages are the caller's, unmodified. -/
def insertHistory (messages : List Message) (history : Option (List Message)) :
    List Message :=
  let hist := history.getD []
  if (messages.find? (fun m =>
      (m.metadata.bind (alookup "purpose")) = some (.str "history"))).isSome then
    messages
  else
    match messages.getLast? with
    | some m =>
      if m.role = "user" then messages.dropLast ++ hist ++ [m]
      else messages ++ hist
    | none => messages ++ hist

/-- An intermediate message source of `toMessages` (before parts parsing):
either accumulated template text, or a pre-built content list (history). -/
structure MsgSource where
  role : String
  source : Option String := none
  content : Option (List Part) := none
  metadata : Option (List (String × JsonValue)) := none

/-- The piece-walking loop of `toMessages`: maintains the list of finished
sources and the current `{role, source}` message; `hist` is the transformed
history inserted at each `<<<dotprompt:history` marker. -/
def msgLoop (hist : List MsgSource) :
    List String → List MsgSource → String × String → List MsgSource
  | [], fin, cur => fin ++ [⟨cur.1, some cur.2, none, none⟩]
  | piece :: rest, fin, cur =>
    if strStartsWith "<<<dotprompt:role:" piece then
      let role : String := ⟨piece.data.drop 18⟩
      if jsTrim cur.2 ≠ "" then
        msgLoop hist rest (fin ++ [⟨cur.1, some cur.2, none, none⟩]) (role, "")
      else
        msgLoop hist rest fin (role, cur.2)
    else if strStartsWith "<<<dotprompt:history" piece then
      msgLoop hist rest (fin ++ [⟨cur.1, some cur.2, none, none⟩] ++ hist) ("model", "")
    else
      msgLoop hist rest fin (cur.1, cur.2 ++ piece)

/-- The filter-and-map stage of `toMessages`: keep sources with content or
non-empty source text (a defined content list is kept even when empty, as an
array is truthy in JS), and build each `Message`. -/
def msgSourceToMessage : MsgSource → Option Message := fun ms =>
  if ms.content.isSome || (ms.source.getD "") ≠ "" then
    some ⟨ms.role, (ms.content.getD (toParts (ms.source.getD ""))), ms.metadata⟩
  else none

/-- The caller-data argument of `toMessages`/`render` (types.ts
`DataArgument`), with the fields the embedded pipeline consumes. -/
structure DataArgument where
  input : Option (List (String × JsonValue)) := none
  docs : Option (List JsonValue) := none
  messages : Option (List Message) := none
  context : Option (List (String × JsonValue)) := none

/-- `toMessages` of parse.ts. -/
def toMessages (renderedString : String) (data : Option DataArgument) :
    List Message :=
  let hist : List MsgSource :=
    match data.bind (·.messages) with
    | some ms => (transformMessagesToHistory ms).map
        (fun m => ⟨m.role, none, some m.content, m.metadata⟩)
    | none => []
  let sources := msgLoop hist (splitByRoleAndHistoryMarkers renderedString) [] ("user", "")
  insertHistory (sources.filterMap msgSourceToMessage) (data.bind (·.messages))

/-- The raw frontmatter mapping of the C1 failing input: a top-level
`metadata` key and a reserved `name` key. -/
def c1RawEntries : List (String × JsonValue) :=
  [("metadata", .obj [("foo", .str "bar")]), ("name", .str "n")]

/-- The parse of the C1 failing input (the YAML oracle returns the mapping
the frontmatter denotes). -/
def c1Parsed : List (String × JsonValue) :=
  parseDocument (fun _ => some c1RawEntries)
    "---\nmetadata:\n  foo: bar\nname: n\n---\nbody"

/-- The C4 rendered string: system text then user text, no history marker. -/
def c4Rendered : String := "<<<dotprompt:role:system>>>S<<<dotprompt:role:user>>>U"

/-- The C4 caller data: one model history message. -/
def c4Data : DataArgument := { messages := some [⟨"model", [.text "H"], none⟩] }

end JsParse

namespace JsEnv

/-- types.ts `ToolDefinition`. -/
structure ToolDefinition where
  name : String
  description : Option String := none
  inputSchema : List (String × JsonValue) := []
  outputSchema : Option (List (String × JsonValue)) := none
deriving DecidableEq, Repr

/-- types.ts `PromptMetadata` with the fields the render pipeline reads.
JS object fields that are absent are `none`; fields explicitly set to
`undefined` are modelled as absent from the start (renderMetadata strips
them via `removeUndefinedFields` right after merging). -/
structure PromptMeta where
  name : Option String := none
  variant : Option String := none
  version : Option String := none
  description : Option String := none
  model : Option String := none
  tools : Option (List String) := none
  toolDefs : Option (List ToolDefinition) := none
  config : Option (List (String × JsonValue)) := none
  input : Option (List (String × JsonValue)) := none
  output : Option (List (String × JsonValue)) := none
  raw : Option JsonValue := none
  ext : Option JsonValue := none
  metadata : Option JsonValue := none
deriving DecidableEq, Repr

/-- JS object spread `{...a, ...b}` on two metadata objects: a field of the
result is `b`'s when present there, else `a`'s. -/
def spreadMerge (a b : PromptMeta) : PromptMeta where
  name := b.name <|> a.name
  variant := b.variant <|> a.variant
  version := b.version <|> a.version
  description := b.description <|> a.description
  model := b.model <|> a.model
  tools := b.tools <|> a.tools
  toolDefs := b.toolDefs <|> a.toolDefs
  config := b.config <|> a.config
  input := b.input <|> a.input
  output := b.output <|> a.output
  raw := b.raw <|> a.raw
  ext := b.ext <|> a.ext
  metadata := b.metadata <|> a.metadata

/-- JS object spread `{...a, ...b}` on plain objects (association lists). -/
def assocMerge (a b : List (String × JsonValue)) : List (String × JsonValue) :=
  b.foldl (fun acc kv => setKey kv.1 kv.2 acc) a

/-- util.ts `removeUndefinedFields`: rebuilds the value tree dropping
entries whose value is `undefined`.  The embedding's value type has no
`undefined`, so the rebuild (a deep copy, whose aliasing effects a pure
embedding cannot observe) is the identity on values. -/
def removeUndefinedFields (m : PromptMeta) : PromptMeta := m

/-- The synchronous first phase of `resolveTools`'s `Promise.all` loop: when
the `map` callbacks run up to their first `await`, statically registered
tools are pushed to `toolDefs` in list order, unregistered names are queued
for the resolver when one is configured, and otherwise pushed to the
residual `tools` list.  Returns (static definitions, pending names,
unresolved names). -/
def resolveToolsPhase1 (reg : List (String × ToolDefinition)) (hasResolver : Bool) :
    List String → List ToolDefinition × List String × List String
  | [] => ([], [], [])
  | n :: ns =>
    let r := resolveToolsPhase1 reg hasResolver ns
    match alookup n reg with
    | some d => (d :: r.1, r.2.1, r.2.2)
    | none =>
      if hasResolver then (r.1, n :: r.2.1, r.2.2)
      else (r.1, r.2.1, n :: r.2.2)

/-- The second phase: awaiting the resolver for each pending name in order
(pure resolvers settle in list order); a `null` result rejects the whole
`Promise.all` with the first failure. -/
def resolveToolsPhase2 (re : String → Option ToolDefinition) :
    List String → Except String (List ToolDefinition)
  | [] => .ok []
  | n :: ns =>
    match re n with
    | none =>
      .error ("Dotprompt: Unable to resolve tool " ++ n ++
        " to a recognized tool definition.")
    | some d => (resolveToolsPhase2 re ns).map (fun ds => d :: ds)

/-- `resolveTools` of environment.ts. -/
def resolveTools (reg : List (String × ToolDefinition))
    (re : Option (String → Option ToolDefinition)) (base : PromptMeta) :
    Except String PromptMeta :=
  match base.tools with
  | none => .ok base
  | some tools =>
    let ph1 := resolveToolsPhase1 reg re.isSome tools
    let resolvedE : Except String (List ToolDefinition) :=
      match re with
      | none => .ok []
      | some f => resolveToolsPhase2 f ph1.2.1
    match resolvedE with
    | .error e => .error e
    | .ok resolved =>
      .ok { base with
            toolDefs := some (base.toolDefs.getD [] ++ ph1.1 ++ resolved),
            tools := some ph1.2.2 }

/-- The partial registry of the Handlebars instance: name to source. -/
abbrev PState := List (String × String)

/-- The engine-instance state and configuration (environment.ts
`DotpromptEnvironment` fields; resolvers are pure functions — the claims'
"no side effects" hypothesis is built into their type). -/
structure Env where
  partials : PState := []
  tools : List (String × ToolDefinition) := []
  toolResolver : Option (String → Option ToolDefinition) := none
  schemas : List (String × List (String × JsonValue)) := []
  schemaResolver : Option (String → Option (List (String × JsonValue))) := none
  partialResolver : Option (String → Option String) := none
  modelConfigs : List (String × List (String × JsonValue)) := []
  defaultModel : Option String := none

mutual

/-- `resolvePartials` of environment.ts: no resolver means nothing to do;
otherwise visit the partial names the engine finds in the template
(`identify` abstracts `identifyPartials`, an AST walk of the external
Handlebars engine).  The JS recursion is unbounded; `fuel` bounds its depth,
and `none` models a run that exceeds it. -/
def resolvePartialsF (re : Option (String → Option String))
    (identify : String → List String) :
    Nat → PState → String → Option PState
  | 0, _, _ => none
  | fuel + 1, st, template =>
    match re with
    | none => some st
    | some f => resolveNamesF f identify fuel (identify template) st
termination_by fuel _ _ => (fuel, 0)

/-- The per-name loop of `resolvePartials`: skip names already registered;
a `null` resolution leaves the name unregistered; a body is registered and
then recursively resolved. -/
def resolveNamesF (f : String → Option String) (identify : String → List String) :
    Nat → List String → PState → Option PState
  | _, [], st => some st
  | fuel, n :: ns, st =>
    if (alookup n st).isSome then resolveNamesF f identify fuel ns st
    else
      match f n with
      | none => resolveNamesF f identify fuel ns st
      | some content =>
        match resolvePartialsF (some f) identify fuel (setKey n content st) content with
        | none => none
        | some st' => resolveNamesF f identify fuel ns st'
termination_by fuel ns _ => (fuel, ns.length + 1)

end

/-- `wrappedSchemaResolver` of environment.ts, over the two registries it
reads: the static schema registry first, then the user resolver, else
`null`. -/
def wrappedSchemaFn (schemas : List (String × List (String × JsonValue)))
    (schemaRe : Option (String → Option (List (String × JsonValue))))
    (n : String) : Option (List (String × JsonValue)) :=
  match alookup n schemas with
  | some s => some s
  | none => schemaRe.bind (fun f => f n)

/-- `wrappedSchemaResolver` bound to an engine instance. -/
def wrappedSchemaResolver (env : Env) : String → Option (List (String × JsonValue)) :=
  wrappedSchemaFn env.schemas env.schemaResolver

/-- `renderPicoschema` of environment.ts.  The JS `picoschema` module is not
among the staged sources; `picoF` abstracts it as a pure function of the
wrapped schema resolver and the schema value (which is all the determinism
and tooling claims depend on). -/
def renderPicoschema
    (picoF : (String → Option (List (String × JsonValue))) → JsonValue →
      Except String JsonValue)
    (schemaFn : String → Option (List (String × JsonValue)))
    (meta : PromptMeta) : Except String PromptMeta :=
  match meta.output with
  | none => .ok meta
  | some out =>
    match alookup "schema" out with
    | none => .ok meta
    | some .null => .ok meta
    | some schema =>
      (picoF schemaFn schema).map
        (fun s => { meta with output := some (setKey "schema" s out) })

/-- The merge loop of `renderMetadata`: shallow spread, `config` deep-merged
one level, skipping absent merge arguments. -/
def mergeMetas : PromptMeta → List (Option PromptMeta) → PromptMeta
  | out, [] => out
  | out, none :: rest => mergeMetas out rest
  | out, some m :: rest =>
    let config := out.config.getD []
    let merged := spreadMerge out m
    mergeMetas { merged with config := some (assocMerge config (m.config.getD [])) } rest

/-- `renderMetadata` of environment.ts: merge, drop `input`, strip undefined
fields, resolve tools, transform the output schema. -/
def renderMetadata (toolsReg : List (String × ToolDefinition))
    (toolRe : Option (String → Option ToolDefinition))
    (schemaFn : String → Option (List (String × JsonValue)))
    (picoF : (String → Option (List (String × JsonValue))) → JsonValue →
      Except String JsonValue)
    (base : PromptMeta) (merges : List (Option PromptMeta)) :
    Except String PromptMeta :=
  let out := mergeMetas base merges
  let out := { out with input := none }
  let out := removeUndefinedFields out
  match resolveTools toolsReg toolRe out with
  | .error e => .error e
  | .ok out2 => renderPicoschema picoF schemaFn out2

/-- The context handed to the engine's render function: the root input
object and the `@metadata` bag (environment.ts `compile`, lines 260-268). -/
structure RenderCtx where
  root : List (String × JsonValue)
  prompt : PromptMeta
  docs : Option (List JsonValue)
  messages : Option (List JsParse.Message)
  context : Option (List (String × JsonValue))

/-- The entries of an optional JSON object value (`{}` for anything else). -/
def asObjEntries : Option JsonValue → List (String × JsonValue)
  | some (.obj es) => es
  | _ => []

/-- A rendered prompt: the merged metadata plus the parsed messages. -/
abbrev RenderedPrompt := PromptMeta × List JsParse.Message

/-- The template a `compile` call extracts from the parse result. -/
def templateOf (yamlParse : String → Option (List (String × JsonValue)))
    (source : String) : String :=
  match alookup "template" (JsParse.parseDocument yamlParse source) with
  | some (.str t) => t
  | _ => ""

/-- Everything the returned renderer computes after partial resolution
(environment.ts `compile`, lines 251-273): model selection, metadata
merging/resolution, the context build, the engine render and the post-render
message parse.  It reads the engine registries and the resolved partial
registry, all passed explicitly.

`compile` destructures `{ metadata: parsedMetadata, template }` from the
parse result; parse.ts pins the `metadata` field at the empty base object
(theorem `JsParse.parseDocument_metadata_empty`), so `parsedMetadata` is the
empty metadata object. -/
def renderOutcome (hbRender : PState → String → RenderCtx → String)
    (picoF : (String → Option (List (String × JsonValue))) → JsonValue →
      Except String JsonValue)
    (toolsReg : List (String × ToolDefinition))
    (toolRe : Option (String → Option ToolDefinition))
    (schemas : List (String × List (String × JsonValue)))
    (schemaRe : Option (String → Option (List (String × JsonValue))))
    (modelConfigs : List (String × List (String × JsonValue)))
    (defaultModel : Option String)
    (partials' : PState) (template : String)
    (data : JsParse.DataArgument) (options : Option PromptMeta) :
    Except String RenderedPrompt :=
  let parsedMetadata : PromptMeta := {}
  let selectedModel := (options.bind (·.model)) <|> parsedMetadata.model <|>
    defaultModel
  let modelConfig := selectedModel.bind (fun m => alookup m modelConfigs)
  let baseMeta : PromptMeta :=
    match modelConfig with
    | some mc => { config := some mc }
    | none => {}
  match renderMetadata toolsReg toolRe (wrappedSchemaFn schemas schemaRe)
      picoF baseMeta [some parsedMetadata, options] with
  | .error e => .error e
  | .ok merged =>
    let ctx : RenderCtx :=
      { root := assocMerge (asObjEntries ((options.bind (·.input)).bind (alookup "default")))
          (data.input.getD []),
        prompt := merged, docs := data.docs, messages := data.messages,
        context := data.context }
    let renderedString := hbRender partials' template ctx
    .ok (merged, JsParse.toMessages renderedString (some data))

/-- `render` of environment.ts (`compile` followed by the returned
renderer).  `identify` and `hbRender` abstract the external Handlebars
engine (AST partial-name walk; template compilation and rendering as a pure
function of the partial registry, the template and the context), and
`yamlParse` the YAML library.  Returns `none` when partial resolution
exceeds `fuel`, else the render outcome and the updated engine state: the
only state a render mutates is the partial registry. -/
def render (identify : String → List String)
    (hbRender : PState → String → RenderCtx → String)
    (yamlParse : String → Option (List (String × JsonValue)))
    (picoF : (String → Option (List (String × JsonValue))) → JsonValue →
      Except String JsonValue)
    (fuel : Nat) (env : Env) (source : String)
    (data : JsParse.DataArgument) (options : Option PromptMeta) :
    Option (Except String RenderedPrompt × Env) :=
  match resolvePartialsF env.partialResolver identify fuel env.partials
      (templateOf yamlParse source) with
  | none => none
  | some partials' =>
    some (renderOutcome hbRender picoF env.tools env.toolResolver env.schemas
        env.schemaResolver env.modelConfigs env.defaultModel partials'
        (templateOf yamlParse source) data options,
      { env with partials := partials' })

/-- The claimed behaviour of tool resolution over a merged metadata whose
`tools` list is `tools`: resolution fails exactly when a configured resolver
returns `null` for some unregistered name; on success, names whose
definition is in the static registry are moved to `toolDefs`, resolver
answers are appended, and names are left in `tools` only when unregistered
with no resolver configured. -/
def ResolveToolsSpec (reg : List (String × ToolDefinition))
    (re : Option (String → Option ToolDefinition)) (base : PromptMeta)
    (tools : List String) : Prop :=
  ((∃ e, resolveTools reg re base = .error e) ↔
    ∃ f, re = some f ∧ ∃ n ∈ tools, alookup n reg = none ∧ f n = none) ∧
  (∀ out, resolveTools reg re base = .ok out →
    out.tools = some (tools.filter (fun n => (alookup n reg).isNone && re.isNone)) ∧
    out.toolDefs = some (base.toolDefs.getD [] ++
      tools.filterMap (fun n => alookup n reg) ++
      tools.filterMap (fun n =>
        if (alookup n reg).isSome then none else re.bind (fun f => f n))))

/-- A concrete static tool registry for the tool-resolution witness. -/
def c6Reg : List (String × ToolDefinition) := [("a", { name := "a" })]

/-- A concrete tool resolver answering only the name `b`. -/
def c6Re : Option (String → Option ToolDefinition) :=
  some (fun n => if n = "b" then some { name := "b" } else none)

/-- A concrete merged metadata with tools `["a", "b"]`. -/
def c6Base : PromptMeta := { tools := some ["a", "b"] }

end JsEnv

-- ===================== THEOREMS =====================

theorem alookup_setKey_self {α : Type} (k : String) (v : α) (l : List (String × α)) :
    alookup k (setKey k v l) = some v := by
  induction l with
  | nil => simp [setKey, alookup]
  | cons kv rest ih =>
    obtain ⟨k', v'⟩ := kv
    by_cases h : k' = k <;> simp [setKey, alookup, h, ih]

theorem alookup_setKey_ne {α : Type} {k₂ k : String} (v : α) (l : List (String × α))
    (h : k₂ ≠ k) : alookup k₂ (setKey k v l) = alookup k₂ l := by
  have hne : ¬(k = k₂) := fun hh => h hh.symm
  induction l with
  | nil => simp [setKey, alookup, hne]
  | cons kv rest ih =>
    obtain ⟨k', v'⟩ := kv
    by_cases hk : k' = k
    · subst hk
      simp [setKey, alookup, hne]
    · simp [setKey, alookup, hk, ih]

theorem isSome_alookup_setKey {α : Type} (k₂ k : String) (v : α) (l : List (String × α))
    (h : (alookup k₂ l).isSome) : (alookup k₂ (setKey k v l)).isSome := by
  by_cases hk : k₂ = k
  · subst hk; simp [alookup_setKey_self]
  · rwa [alookup_setKey_ne v l hk]

theorem alookup_setKey {α : Type} (k n : String) (v : α) (l : List (String × α)) :
    alookup k (setKey n v l) = if n = k then some v else alookup k l := by
  by_cases h : n = k
  · subst h; simp [alookup_setKey_self]
  · rw [alookup_setKey_ne v l (fun hh => h hh.symm)]
    simp [h]

theorem except_bind_ok {ε α β : Type} {x : Except ε α} {f : α → Except ε β} {b : β}
    (h : (x >>= f) = .ok b) : ∃ a, x = .ok a ∧ f a = .ok b := by
  cases x with
  | error e => simp [Bind.bind, Except.bind] at h
  | ok a => exact ⟨a, rfl, by simpa [Bind.bind, Except.bind] using h⟩

namespace GoPico

/-- Any successful loop iteration either leaves `properties` and `required`
unchanged (the wildcard key), or writes one property under some name and
either leaves `required` unchanged or appends exactly that name. -/
theorem parsePicoEntryStep_shape (p : PicoschemaParser) (key : String)
    (value : JsonValue) (props : JSONSchema) (req : List String) (addl : JsonValue)
    (out : JSONSchema × List String × JsonValue)
    (h : parsePicoEntryStep p key value props req addl = .ok out) :
    (out.1 = props ∧ out.2.1 = req) ∨
    ∃ name pv, out.1 = setKey name (JsonValue.obj pv) props ∧
      (out.2.1 = req ∨ out.2.1 = req ++ [name]) := by
  unfold parsePicoEntryStep at h
  split at h
  · obtain ⟨pv, _, h⟩ := except_bind_ok h
    simp only [pure, Except.pure, Except.ok.injEq] at h
    subst h
    exact Or.inl ⟨rfl, rfl⟩
  · split at h
    · obtain ⟨prop, _, h⟩ := except_bind_ok h
      simp only [pure, Except.pure, Except.ok.injEq] at h
      subst h
      refine Or.inr ⟨_, _, rfl, ?_⟩
      dsimp only
      split <;> simp
    · obtain ⟨newProp, _, h⟩ := except_bind_ok h
      simp only [pure, Except.pure, Except.ok.injEq] at h
      subst h
      refine Or.inr ⟨_, _, rfl, ?_⟩
      dsimp only
      split <;> simp

/-- Loop invariant: processing entries preserves "every accumulated required
name has an entry in the accumulated properties map". -/
theorem parsePicoEntries_subset (p : PicoschemaParser) (entries : List (String × JsonValue)) :
    ∀ (props : JSONSchema) (req : List String) (addl : JsonValue)
      (props' : JSONSchema) (req' : List String) (addl' : JsonValue),
      parsePicoEntries p entries props req addl = .ok (props', req', addl') →
      (∀ n ∈ req, (alookup n props).isSome) →
      ∀ n ∈ req', (alookup n props').isSome := by
  induction entries with
  | nil =>
    intro props req addl props' req' addl' h hinv
    unfold parsePicoEntries at h
    simp only [Except.ok.injEq, Prod.mk.injEq] at h
    obtain ⟨h1, h2, _⟩ := h
    subst h1; subst h2
    exact hinv
  | cons e rest ih =>
    intro props req addl props' req' addl' h hinv
    obtain ⟨key, value⟩ := e
    unfold parsePicoEntries at h
    obtain ⟨⟨pm, rm, am⟩, hstep, hrest⟩ := except_bind_ok h
    refine ih pm rm am props' req' addl' hrest ?_
    rcases parsePicoEntryStep_shape p key value props req addl _ hstep with
      ⟨h1, h2⟩ | ⟨name, pv, h1, h2⟩
    · simp only at h1 h2; rw [h1, h2]; exact hinv
    · simp only at h1 h2
      intro n hn
      rw [h1]
      rcases h2 with h2 | h2

      · rw [h2] at hn
        exact isSome_alookup_setKey n name (JsonValue.obj pv) props (hinv n hn)
      · rw [h2] at hn
        rcases List.mem_append.mp hn with hn | hn
        · exact isSome_alookup_setKey n name (JsonValue.obj pv) props (hinv n hn)
        · rcases List.mem_singleton.mp hn with rfl
          simp [alookup_setKey_self]

/-- Sorting with `sortStrings` yields a `≤`-sorted list with the same members. -/
theorem sortStrings_sorted (l : List String) :
    (sortStrings l).Sorted (fun a b => a.data ≤ b.data) := by
  haveI : IsTotal String (fun a b : String => a.data ≤ b.data) :=
    ⟨fun a b => le_total a.data b.data⟩
  haveI : IsTrans String (fun a b : String => a.data ≤ b.data) :=
    ⟨fun _ _ _ hab hbc => le_trans hab hbc⟩
  exact List.sorted_insertionSort (fun a b => a.data ≤ b.data) l

theorem sortStrings_perm (l : List String) : List.Perm (sortStrings l) l := by
  unfold sortStrings
  exact List.perm_insertionSort _ l

theorem sortStrings_mem (l : List String) (a : String) :
    a ∈ sortStrings l ↔ a ∈ l := (sortStrings_perm l).mem_iff

/-- C7: for every mapping processed by `parsePico`, a successful result has a
well-formed `required` list: absent when empty, otherwise non-empty, sorted,
and every required name is a key of `properties`. -/
theorem go_picoschema_required_wellformed (p : PicoschemaParser)
    (entries : List (String × JsonValue)) (s : JSONSchema)
    (h : parsePico p (.obj entries) = .ok s) :
    alookup "required" s = none ∨
    ∃ names props, alookup "required" s = some (.arr (names.map .str)) ∧
      names ≠ [] ∧ names.Sorted (fun a b => a.data ≤ b.data) ∧
      alookup "properties" s = some (.obj props) ∧
      ∀ n ∈ names, (alookup n props).isSome := by
  unfold parsePico at h
  obtain ⟨⟨props, req, addl⟩, hloop, h⟩ := except_bind_ok h
  dsimp only at h
  split at h
  · simp only [pure, Except.pure, Except.ok.injEq] at h
    subst h
    left
    simp +decide [alookup]
  · simp only [pure, Except.pure, Except.ok.injEq] at h
    subst h
    right
    refine ⟨sortStrings req, props, ?_, ?_, sortStrings_sorted req, ?_, ?_⟩
    · simp +decide [alookup]
    · intro hnil
      have hperm := sortStrings_perm req
      rw [hnil] at hperm
      rename_i hne
      rw [hperm.symm.eq_nil] at hne
      simp at hne
    · simp +decide [alookup]
    · intro n hn
      rw [sortStrings_mem] at hn
      exact parsePicoEntries_subset p entries [] [] (.bool false) props req addl hloop
        (fun n hn => absurd hn (List.not_mem_nil n)) n hn

/-- C7 witness: a concrete two-property schema; `required` is present,
non-empty, sorted, and covered by `properties`. -/
theorem go_picoschema_required_wellformed_witness :
    parsePico noResolver (.obj [("b", .str "string"), ("a", .str "number")]) =
      .ok [("type", .str "object"),
           ("properties", .obj [("b", .obj [("type", .str "string")]),
                                ("a", .obj [("type", .str "number")])]),
           ("required", .arr [.str "a", .str "b"]),
           ("additionalProperties", .bool false)] ∧
    (alookup "required" [("type", JsonValue.str "object"),
           ("properties", .obj [("b", .obj [("type", .str "string")]),
                                ("a", .obj [("type", .str "number")])]),
           ("required", .arr [.str "a", .str "b"]),
           ("additionalProperties", .bool false)] = none ∨
    ∃ names props, alookup "required" [("type", JsonValue.str "object"),
           ("properties", .obj [("b", .obj [("type", .str "string")]),
                                ("a", .obj [("type", .str "number")])]),
           ("required", .arr [.str "a", .str "b"]),
           ("additionalProperties", .bool false)] = some (.arr (names.map .str)) ∧
      names ≠ [] ∧ names.Sorted (fun a b => a.data ≤ b.data) ∧
      alookup "properties" [("type", JsonValue.str "object"),
           ("properties", .obj [("b", .obj [("type", .str "string")]),
                                ("a", .obj [("type", .str "number")])]),
           ("required", .arr [.str "a", .str "b"]),
           ("additionalProperties", .bool false)] = some (.obj props) ∧
      ∀ n ∈ names, (alookup n props).isSome) := by
  have heval : parsePico noResolver (.obj [("b", .str "string"), ("a", .str "number")]) =
      .ok [("type", .str "object"),
           ("properties", .obj [("b", .obj [("type", .str "string")]),
                                ("a", .obj [("type", .str "number")])]),
           ("required", .arr [.str "a", .str "b"]),
           ("additionalProperties", .bool false)] := by
    simp only [parsePico, parsePicoEntries, parsePicoEntryStep]; rfl
  exact ⟨heval, go_picoschema_required_wellformed noResolver _ _ heval⟩

/-- C3: evaluating `parsePico` at the spec's optional-array input.  The
produced property schema sets `type: ["array","null"]` and has **no** `anyOf`
key, while the claim (and `picoschema_test.go`, which expects
`AnyOf: [{Type:"array"},{Type:"null"}]` for this very input) demands the
nullable wrapper be expressed as `anyOf`.  `required` is omitted as claimed. -/
theorem go_picoschema_optional_array_at_spec_input :
    parsePico noResolver (.obj [("items?(array, list of items)", .str "string")]) =
      .ok [("type", .str "object"),
           ("properties", .obj [("items", .obj c3ItemsProp)]),
           ("additionalProperties", .bool false)] ∧
    alookup "anyOf" c3ItemsProp = none ∧
    alookup "type" c3ItemsProp = some (.arr [.str "array", .str "null"]) ∧
    alookup "required" [("type", JsonValue.str "object"),
           ("properties", .obj [("items", .obj c3ItemsProp)]),
           ("additionalProperties", .bool false)] = none := by
  refine ⟨?_, rfl, rfl, rfl⟩
  simp only [parsePico, parsePicoEntries, parsePicoEntryStep]; rfl

/-- C5: evaluating `parsePico` at a mapping whose `(enum)`-annotated key holds
a non-sequence value.  The unchecked Go type assertion `value.([]any)` panics
(a crash), instead of returning an error to the caller. -/
theorem go_picoschema_enum_nonlist_panics :
    parsePico noResolver (.obj [("status(enum)", .str "active")]) =
      .error (.goPanic "interface conversion: the enum value is not a slice of any") := by
  simp only [parsePico, parsePicoEntries, parsePicoEntryStep]; rfl

/-- C10: `parsePico` on the scalar `"any"` yields the empty schema (no `type`
key), with a description it yields only `{description}`, i.e. in property
position an `any` value has no `type`; the top-level `Parse` of the bare
string `"any"` instead emits `{type: "any"}`. -/
theorem go_picoschema_any_scalar_vs_toplevel :
    parsePico noResolver (.str "any") = .ok [] ∧
    parsePico noResolver (.str "any, list of items") =
      .ok [("description", .str "list of items")] ∧
    (parsePico noResolver (.obj [("foo", .str "any")])).map
        (fun s => (alookup "properties" s)) =
      .ok (some (.obj [("foo", .obj [])])) ∧
    Parse noResolver (.str "any") = .ok (some [("type", .str "any")]) := by
  refine ⟨?_, ?_, ?_, rfl⟩ <;>
    · simp only [parsePico, parsePicoEntries, parsePicoEntryStep]; rfl

/-- C8: `Parse` is idempotent on JSON-Schema-shaped mappings: the first
application returns a schema that the second application returns unchanged. -/
theorem go_picoschema_idempotent_on_shaped (p : PicoschemaParser)
    (m : List (String × JsonValue)) (h : isJsonSchemaShaped m) :
    ∃ s, Parse p (.obj m) = .ok (some s) ∧ Parse p (.obj s) = .ok (some s) := by
  by_cases h1 : ∃ t, alookup "type" m = some (.str t) ∧
      (JSONSchemaScalarTypes ++ ["object", "array"]).contains t = true
  · obtain ⟨t, ht, hmem⟩ := h1
    refine ⟨m, ?_, ?_⟩ <;>
      · simp only [Parse, ht]
        rw [hmem]
        simp
  · have h2 : ∃ pm, alookup "properties" m = some (.obj pm) := by
      rcases h with ⟨t, ht, hmem⟩ | h2
      · exact absurd ⟨t, ht, hmem⟩ h1
      · exact h2
    obtain ⟨pm, hpm⟩ := h2
    have htail : parseMapTail p m = .ok (some (setKey "type" (.str "object") m)) := by
      unfold parseMapTail
      rw [hpm]
    refine ⟨setKey "type" (.str "object") m, ?_, ?_⟩
    · simp only [Parse]
      cases hty : alookup "type" m with
      | none => exact htail
      | some v =>
        cases v with
        | str t =>
          have hnc : (JSONSchemaScalarTypes ++ ["object", "array"]).contains t = false := by
            cases hc : (JSONSchemaScalarTypes ++ ["object", "array"]).contains t
            · rfl
            · exact absurd ⟨t, hty, hc⟩ h1
          simp only [hnc, Bool.false_eq_true, if_false]
          exact htail
        | num n => exact htail
        | bool b => exact htail
        | null => exact htail
        | arr xs => exact htail
        | obj es => exact htail
    · simp only [Parse]
      rw [alookup_setKey_self]
      simp

/-- C8 witness: a concrete JSON-Schema-shaped mapping (`properties` present,
no usable `type`), on which `Parse` promotes `type: object` once and is then
stable. -/
theorem go_picoschema_idempotent_on_shaped_witness :
    isJsonSchemaShaped [("properties", .obj [("a", .obj [("type", .str "string")])])] ∧
    ∃ s, Parse noResolver (.obj [("properties",
            .obj [("a", .obj [("type", .str "string")])])]) = .ok (some s) ∧
         Parse noResolver (.obj s) = .ok (some s) :=
  ⟨Or.inr ⟨[("a", .obj [("type", .str "string")])], rfl⟩,
   go_picoschema_idempotent_on_shaped noResolver _
     (Or.inr ⟨[("a", .obj [("type", .str "string")])], rfl⟩)⟩

end GoPico

namespace JsParse

/-- C1: the reserved keyword list has 12 entries and does **not** contain
`metadata`; parsing a document whose frontmatter has a top-level `metadata`
key leaves the result's `metadata` field at the empty base object (the key
is dropped from the partition, while the reserved `name` key is copied, the
key survives in `raw`, and nothing reaches `ext`). -/
theorem js_parse_metadata_not_reserved :
    RESERVED_METADATA_KEYWORDS.contains "metadata" = false ∧
    RESERVED_METADATA_KEYWORDS.length = 12 ∧
    alookup "metadata" c1Parsed = some (.obj []) ∧
    alookup "name" c1Parsed = some (.str "n") ∧
    alookup "raw" c1Parsed = some (.obj c1RawEntries) ∧
    alookup "ext" c1Parsed = some (.obj []) :=
  ⟨rfl, rfl, rfl, rfl, rfl, rfl⟩

/-- C4 counterexample: the claim says the inserted history message carries
`metadata.purpose = "history"`; in fact the message between the system and
user messages is the caller's history message unchanged, with no metadata. -/
theorem js_to_messages_history_purpose_counterexample :
    (toMessages c4Rendered (some c4Data)).get? 1 =
      some ⟨"model", [.text "H"], none⟩ ∧
    ¬ ∃ md, (toMessages c4Rendered (some c4Data)).get? 1 =
        some ⟨"model", [.text "H"], some md⟩ ∧
      alookup "purpose" md = some (.str "history") := by
  refine ⟨rfl, ?_⟩
  rintro ⟨md, h1, _⟩
  rw [show (toMessages c4Rendered (some c4Data)).get? 1 =
      some ⟨"model", [.text "H"], none⟩ from rfl] at h1
  simp at h1

/-- C4 (amended): with rendered sources `[system "S", user "U"]` and caller
history `[model "H"]`, `toMessages` returns the system message, then the
history model message inserted unchanged (no `purpose` metadata), then the
user message. -/
theorem js_to_messages_history_before_trailing_user :
    toMessages c4Rendered (some c4Data) =
      [⟨"system", [.text "S"], none⟩,
       ⟨"model", [.text "H"], none⟩,
       ⟨"user", [.text "U"], none⟩] := rfl

/-- C9 (amended): whenever the extracted frontmatter is empty — in
particular for a present-but-empty frontmatter block, which either fails the
frontmatter regex (`---\n---\n…`) or matches with an empty capture that the
`if (frontmatter)` truthiness test rejects — `parseDocument` falls back to
base metadata with the **entire source**, untrimmed, as the template. -/
theorem js_parse_empty_frontmatter_returns_full_source
    (yamlParse : String → Option (List (String × JsonValue))) (source : String)
    (h : (extractFrontmatterAndBody source).1 = "") :
    parseDocument yamlParse source = BASE_METADATA ++ [("template", .str source)] := by
  simp [parseDocument, h]

/-- C9 witness: the empty frontmatter block `---\n---\nbody`. -/
theorem js_parse_empty_frontmatter_returns_full_source_witness :
    (extractFrontmatterAndBody "---\n---\nbody").1 = "" ∧
    parseDocument (fun _ => some []) "---\n---\nbody" =
      BASE_METADATA ++ [("template", .str "---\n---\nbody")] :=
  ⟨rfl, js_parse_empty_frontmatter_returns_full_source _ _ rfl⟩

/-- C9 counterexample: for the empty frontmatter block the claim expects the
body after the closing delimiter (`"body"`) as the template; the code
returns the whole source instead. -/
theorem js_parse_empty_frontmatter_counterexample :
    alookup "template" (parseDocument (fun _ => some []) "---\n---\nbody") =
      some (.str "---\n---\nbody") ∧
    alookup "template" (parseDocument (fun _ => some []) "---\n---\nbody") ≠
      some (.str "body") := by
  refine ⟨rfl, ?_⟩
  intro h
  rw [show alookup "template" (parseDocument (fun _ => some []) "---\n---\nbody") =
      some (.str "---\n---\nbody") from rfl] at h
  simp at h

/-- The partition loop never touches the `metadata` binding of the pruned
object: `metadata` is not among the reserved keywords. -/
theorem partition_metadata_invariant (raw : List (String × JsonValue)) :
    ∀ (pruned : List (String × JsonValue)) (ext : ExtMap),
      alookup "metadata" pruned = some (.obj []) →
      alookup "metadata" (partitionEntries raw pruned ext).1 = some (.obj []) := by
  induction raw with
  | nil => intro pruned ext h; simpa [partitionEntries] using h
  | cons kv rest ih =>
    intro pruned ext h
    obtain ⟨k, v⟩ := kv
    simp only [partitionEntries]
    split
    · rename_i hres
      refine ih _ _ ?_
      rw [alookup_setKey]
      split
      · rename_i heq
        subst heq
        exact absurd hres (by decide)
      · exact h
    · split
      · exact ih _ _ h
      · exact ih _ _ h

/-- `parseDocument` always returns the empty base object as the `metadata`
field: the key is not reserved, so the partition never assigns it. -/
theorem parseDocument_metadata_empty
    (yamlParse : String → Option (List (String × JsonValue))) (source : String) :
    alookup "metadata" (parseDocument yamlParse source) = some (.obj []) := by
  unfold parseDocument
  dsimp only
  split
  · split
    · rename_i raw _
      simp +decide only [alookup_setKey]
      exact partition_metadata_invariant raw BASE_METADATA [] rfl
    · rfl
  · rfl

end JsParse

namespace JsEnv

/-- Partial resolution only adds registry entries: every existing binding
survives (both mutually recursive resolution functions, by fuel induction). -/
theorem partials_mono : ∀ fuel : Nat,
    (∀ (re : Option (String → Option String)) (identify : String → List String)
       (st : PState) (t : String) (st' : PState),
      resolvePartialsF re identify fuel st t = some st' →
      ∀ k v, alookup k st = some v → alookup k st' = some v) ∧
    (∀ (f : String → Option String) (identify : String → List String)
       (ns : List String) (st st' : PState),
      resolveNamesF f identify fuel ns st = some st' →
      ∀ k v, alookup k st = some v → alookup k st' = some v) := by
  intro fuel
  induction fuel with
  | zero =>
    constructor
    · intro re identify st t st' h
      simp [resolvePartialsF] at h
    · intro f identify ns
      induction ns with
      | nil =>
        intro st st' h k v hk
        simp only [resolveNamesF, Option.some.injEq] at h
        exact h ▸ hk
      | cons n ns ihns =>
        intro st st' h k v hk
        simp only [resolveNamesF] at h
        split at h
        · exact ihns st st' h k v hk
        · split at h
          · exact ihns st st' h k v hk
          · simp [resolvePartialsF] at h
  | succ fuel ih =>
    obtain ⟨_, ihN⟩ := ih
    have hP : ∀ (re : Option (String → Option String)) identify st t st',
        resolvePartialsF re identify (fuel + 1) st t = some st' →
        ∀ k v, alookup k st = some v → alookup k st' = some v := by
      intro re identify st t st' h k v hk
      cases re with
      | none =>
        simp only [resolvePartialsF, Option.some.injEq] at h
        exact h ▸ hk
      | some f =>
        simp only [resolvePartialsF] at h
        exact ihN f identify (identify t) st st' h k v hk
    refine ⟨hP, ?_⟩
    intro f identify ns
    induction ns with
    | nil =>
      intro st st' h k v hk
      simp only [resolveNamesF, Option.some.injEq] at h
      exact h ▸ hk
    | cons n ns ihns =>
      intro st st' h k v hk
      simp only [resolveNamesF] at h
      split at h
      · exact ihns st st' h k v hk
      · rename_i hreg
        split at h
        · exact ihns st st' h k v hk
        · rename_i content hfn
          cases hr : resolvePartialsF (some f) identify (fuel + 1)
              (setKey n content st) content with
          | none => rw [hr] at h; exact absurd h (by simp)
          | some st₂ =>
            rw [hr] at h
            have hkeep : alookup k (setKey n content st) = some v := by
              rw [alookup_setKey]
              split
              · rename_i heq
                subst heq
                rw [hk] at hreg
                simp at hreg
              · exact hk
            exact ihns st₂ st' h k v (hP _ _ _ _ _ hr k v hkeep)

/-- Provenance of registry entries after resolution: a binding of the result
either was present before, or is the resolver's (pure) answer for its name. -/
theorem partials_prov : ∀ fuel : Nat,
    (∀ (re : Option (String → Option String)) (identify : String → List String)
       (st : PState) (t : String) (st' : PState),
      resolvePartialsF re identify fuel st t = some st' →
      ∀ k c, alookup k st' = some c →
        alookup k st = some c ∨ ∃ f, re = some f ∧ f k = some c) ∧
    (∀ (f : String → Option String) (identify : String → List String)
       (ns : List String) (st st' : PState),
      resolveNamesF f identify fuel ns st = some st' →
      ∀ k c, alookup k st' = some c → alookup k st = some c ∨ f k = some c) := by
  intro fuel
  induction fuel with
  | zero =>
    constructor
    · intro re identify st t st' h
      simp [resolvePartialsF] at h
    · intro f identify ns
      induction ns with
      | nil =>
        intro st st' h k c hk
        simp only [resolveNamesF, Option.some.injEq] at h
        exact Or.inl (h ▸ hk)
      | cons n ns ihns =>
        intro st st' h k c hk
        simp only [resolveNamesF] at h
        split at h
        · exact ihns st st' h k c hk
        · split at h
          · exact ihns st st' h k c hk
          · simp [resolvePartialsF] at h
  | succ fuel ih =>
    obtain ⟨_, ihN⟩ := ih
    have hP : ∀ (re : Option (String → Option String)) identify st t st',
        resolvePartialsF re identify (fuel + 1) st t = some st' →
        ∀ k c, alookup k st' = some c →
          alookup k st = some c ∨ ∃ f, re = some f ∧ f k = some c := by
      intro re identify st t st' h k c hk
      cases re with
      | none =>
        simp only [resolvePartialsF, Option.some.injEq] at h
        exact Or.inl (h ▸ hk)
      | some f =>
        simp only [resolvePartialsF] at h
        rcases ihN f identify (identify t) st st' h k c hk with h1 | h1
        · exact Or.inl h1
        · exact Or.inr ⟨f, rfl, h1⟩
    refine ⟨hP, ?_⟩
    intro f identify ns
    induction ns with
    | nil =>
      intro st st' h k c hk
      simp only [resolveNamesF, Option.some.injEq] at h
      exact Or.inl (h ▸ hk)
    | cons n ns ihns =>
      intro st st' h k c hk
      simp only [resolveNamesF] at h
      split at h
      · exact ihns st st' h k c hk
      · split at h
        · exact ihns st st' h k c hk
        · rename_i content hfn
          cases hr : resolvePartialsF (some f) identify (fuel + 1)
              (setKey n content st) content with
          | none => rw [hr] at h; exact absurd h (by simp)
          | some st₂ =>
            rw [hr] at h
            rcases ihns st₂ st' h k c hk with h1 | h1
            · rcases hP _ _ _ _ _ hr k c h1 with h2 | h2
              · rw [alookup_setKey] at h2
                split at h2
                · rename_i heq
                  subst heq
                  right
                  simp only [Option.some.injEq] at h2
                  exact h2 ▸ hfn
                · exact Or.inl h2
              · obtain ⟨f', hf', hc⟩ := h2
                simp only [Option.some.injEq] at hf'
                exact Or.inr (hf' ▸ hc)
            · exact Or.inr h1

/-- Second resolution from an already-resolved registry is a no-op: the name
loop skips registered names and re-resolves only names the (pure) resolver
answered `null` for, leaving the registry unchanged. -/
theorem resolveNamesF_idem (f : String → Option String)
    (identify : String → List String) (fuel : Nat) : ∀ (ns : List String)
    (st st' : PState), resolveNamesF f identify fuel ns st = some st' →
    resolveNamesF f identify fuel ns st' = some st' := by
  intro ns
  induction ns with
  | nil =>
    intro st st' h
    simp [resolveNamesF]
  | cons n ns ihns =>
    intro st st' h
    simp only [resolveNamesF] at h ⊢
    split at h
    · rename_i hreg
      have hsome : (alookup n st').isSome = true := by
        obtain ⟨v, hv⟩ := Option.isSome_iff_exists.mp hreg
        have := (partials_mono fuel).2 f identify ns st st' h n v hv
        simp [this]
      rw [if_pos hsome]
      exact ihns st st' h
    · rename_i hreg
      split at h
      · rename_i hfn
        have hnone : (alookup n st').isSome = false := by
          cases hv : alookup n st' with
          | none => rfl
          | some c =>
            rcases (partials_prov fuel).2 f identify ns st st' h n c hv with h1 | h1
            · rw [h1] at hreg; simp at hreg
            · rw [h1] at hfn; exact absurd hfn (by simp)
        rw [hnone]
        simp only [Bool.false_eq_true, if_false]
        exact ihns st st' h
      · rename_i content hfn
        cases hr : resolvePartialsF (some f) identify fuel
            (setKey n content st) content with
        | none => rw [hr] at h; exact absurd h (by simp)
        | some st₂ =>
          rw [hr] at h
          have hsome : (alookup n st').isSome = true := by
            have h1 : alookup n (setKey n content st) = some content :=
              alookup_setKey_self n content st
            have h2 := (partials_mono fuel).1 (some f) identify _ _ _ hr n content h1
            have h3 := (partials_mono fuel).2 f identify ns st₂ st' h n content h2
            simp [h3]
          rw [if_pos hsome]
          exact ihns st₂ st' h

/-- Idempotence of partial resolution: a completed resolution, run again
from its own result registry, completes with the same registry. -/
theorem resolvePartialsF_idem (re : Option (String → Option String))
    (identify : String → List String) (fuel : Nat) (st : PState) (t : String)
    (st' : PState) (h : resolvePartialsF re identify fuel st t = some st') :
    resolvePartialsF re identify fuel st' t = some st' := by
  cases fuel with
  | zero => simp [resolvePartialsF] at h
  | succ fuel =>
    cases re with
    | none =>
      simp [resolvePartialsF]
    | some f =>
      simp only [resolvePartialsF] at h ⊢
      exact resolveNamesF_idem f identify fuel (identify t) st st' h

/-- C2: rendering is deterministic across engine state.  Two consecutive
`render` calls with the same source, data and options — resolvers are pure
functions, the claims' "no side effects" — produce equal outcomes (the whole
`RenderedPrompt`, `toolDefs` included), and the second call leaves the
engine state unchanged: the only state a render mutates is the partial
registry, whose resolution is idempotent. -/
theorem js_render_deterministic
    (identify : String → List String)
    (hbRender : PState → String → RenderCtx → String)
    (yamlParse : String → Option (List (String × JsonValue)))
    (picoF : (String → Option (List (String × JsonValue))) → JsonValue →
      Except String JsonValue)
    (fuel : Nat) (env : Env) (source : String)
    (data : JsParse.DataArgument) (options : Option PromptMeta)
    (r₁ r₂ : Except String RenderedPrompt) (env₁ env₂ : Env)
    (h₁ : render identify hbRender yamlParse picoF fuel env source data options =
      some (r₁, env₁))
    (h₂ : render identify hbRender yamlParse picoF fuel env₁ source data options =
      some (r₂, env₂)) :
    r₁ = r₂ ∧ env₂ = env₁ := by
  unfold render at h₁ h₂
  cases hp₁ : resolvePartialsF env.partialResolver identify fuel env.partials
      (templateOf yamlParse source) with
  | none => rw [hp₁] at h₁; exact absurd h₁ (by simp)
  | some p₁ =>
    rw [hp₁] at h₁
    simp only [Option.some.injEq, Prod.mk.injEq] at h₁
    obtain ⟨hr₁, henv₁⟩ := h₁
    subst henv₁
    dsimp only at h₂
    rw [resolvePartialsF_idem env.partialResolver identify fuel env.partials
      (templateOf yamlParse source) p₁ hp₁] at h₂
    simp only [Option.some.injEq, Prod.mk.injEq] at h₂
    obtain ⟨hr₂, henv₂⟩ := h₂
    exact ⟨hr₁.symm.trans hr₂, henv₂.symm⟩

/-- C2 witness: a concrete engine with no resolvers, an identity engine
render function and the source `"Hello"`; both renders produce the same
rendered prompt and leave the engine state unchanged. -/
theorem js_render_deterministic_witness :
    (render (fun _ => []) (fun _ t _ => t) (fun _ => none) (fun _ v => .ok v)
        1 {} "Hello" {} none =
      some (.ok ({ config := some [] },
        [⟨"user", [JsParse.Part.text "Hello"], none⟩]), {})) ∧
    ((.ok ({ config := some [] }, [⟨"user", [JsParse.Part.text "Hello"], none⟩]) :
        Except String RenderedPrompt) =
      .ok ({ config := some [] }, [⟨"user", [JsParse.Part.text "Hello"], none⟩]) ∧
     ({} : Env) = {}) := by
  have heval : render (fun _ => []) (fun _ t _ => t) (fun _ => none)
      (fun _ v => .ok v) 1 {} "Hello" {} none =
      some (.ok ({ config := some [] },
        [⟨"user", [JsParse.Part.text "Hello"], none⟩]), {}) := by
    simp only [render, resolvePartialsF]
    rfl
  exact ⟨heval,
    js_render_deterministic (fun _ => []) (fun _ t _ => t) (fun _ => none)
      (fun _ v => .ok v) 1 {} "Hello" {} none _ _ _ _ heval heval⟩

/-- Phase 1 of tool resolution, in closed form: static definitions in order,
pending names (resolver configured) or residual names (no resolver). -/
theorem resolveToolsPhase1_spec (reg : List (String × ToolDefinition)) (hasR : Bool) :
    ∀ tools : List String,
      resolveToolsPhase1 reg hasR tools =
        (tools.filterMap (fun n => alookup n reg),
         (if hasR then tools.filter (fun n => (alookup n reg).isNone) else []),
         (if hasR then [] else tools.filter (fun n => (alookup n reg).isNone))) := by
  intro tools
  induction tools with
  | nil => cases hasR <;> simp [resolveToolsPhase1]
  | cons n ns ih =>
    simp only [resolveToolsPhase1, ih]
    cases halk : alookup n reg with
    | some d => cases hasR <;> simp [halk, List.filter_cons, List.filterMap_cons]
    | none => cases hasR <;> simp [halk, List.filter_cons, List.filterMap_cons]

/-- Phase 2 succeeds with the resolver's answers, in order, when the
resolver answers every pending name. -/
theorem resolveToolsPhase2_ok (f : String → Option ToolDefinition) :
    ∀ pend : List String, (∀ n ∈ pend, (f n).isSome) →
      resolveToolsPhase2 f pend = .ok (pend.filterMap f) := by
  intro pend
  induction pend with
  | nil => intro _; simp [resolveToolsPhase2]
  | cons n ns ih =>
    intro hall
    obtain ⟨d, hd⟩ := Option.isSome_iff_exists.mp (hall n (by simp))
    simp only [resolveToolsPhase2, hd]
    rw [ih (fun m hm => hall m (by simp [hm]))]
    simp [Except.map, List.filterMap_cons, hd]

/-- Phase 2 rejects when the resolver returns `null` for a pending name. -/
theorem resolveToolsPhase2_err (f : String → Option ToolDefinition) :
    ∀ pend : List String, (∃ n ∈ pend, f n = none) →
      ∃ e, resolveToolsPhase2 f pend = .error e := by
  intro pend
  induction pend with
  | nil => rintro ⟨n, hn, _⟩; simp at hn
  | cons m ns ih =>
    rintro ⟨n, hn, hfn⟩
    simp only [resolveToolsPhase2]
    cases hfm : f m with
    | none => exact ⟨_, rfl⟩
    | some d =>
      rcases List.mem_cons.mp hn with rfl | hn'
      · rw [hfm] at hfn; exact absurd hfn (by simp)
      · obtain ⟨e, he⟩ := ih ⟨n, hn', hfn⟩
        rw [he]
        exact ⟨e, rfl⟩

theorem filterMap_filter_isNone (reg : List (String × ToolDefinition))
    (f : String → Option ToolDefinition) :
    ∀ l : List String,
      (l.filter (fun n => (alookup n reg).isNone)).filterMap f =
        l.filterMap (fun n => if (alookup n reg).isSome then none else f n) := by
  intro l
  induction l with
  | nil => simp
  | cons n ns ih =>
    cases halk : alookup n reg <;>
      simp [List.filter_cons, List.filterMap_cons, halk, ih]

/-- C6: tool resolution partitions the merged `tools` list exactly as
claimed: registered names move to `toolDefs`, a configured resolver is
invoked for the rest and its answers appended, unresolvable names stay in
`tools` only when no resolver is configured, and resolution fails precisely
when a configured resolver returns `null` for an unregistered name. -/
theorem js_resolve_tools_partition (reg : List (String × ToolDefinition))
    (re : Option (String → Option ToolDefinition)) (base : PromptMeta)
    (tools : List String) (h : base.tools = some tools) :
    ResolveToolsSpec reg re base tools := by
  unfold ResolveToolsSpec resolveTools
  rw [h]
  cases re with
  | none =>
    dsimp only
    rw [resolveToolsPhase1_spec]
    simp only [Option.isSome_none, Bool.false_eq_true, if_false]
    constructor
    · constructor
      · rintro ⟨e, he⟩
        simp at he
      · rintro ⟨f, hf, _⟩
        exact absurd hf (by simp)
    · intro out hout
      simp only [Except.ok.injEq] at hout
      subst hout
      constructor
      · simp
      · simp [ite_self]
  | some f =>
    dsimp only
    rw [resolveToolsPhase1_spec]
    simp only [Option.isSome_some, if_true]
    by_cases hall : ∀ n ∈ tools.filter (fun n => (alookup n reg).isNone), (f n).isSome
    · rw [resolveToolsPhase2_ok f _ hall]
      dsimp only
      constructor
      · constructor
        · rintro ⟨e, he⟩
          simp at he
        · rintro ⟨f', hf', n, hn, hno, hfn⟩
          simp only [Option.some.injEq] at hf'
          subst hf'
          have hmem : n ∈ tools.filter (fun n => (alookup n reg).isNone) := by
            simp [List.mem_filter, hn, hno]
          have h2 := hall n hmem
          rw [hfn] at h2
          simp at h2
      · intro out hout
        simp only [Except.ok.injEq] at hout
        subst hout
        constructor
        · simp
        · rw [filterMap_filter_isNone]
          rfl
    · push_neg at hall
      obtain ⟨n, hn, hfn⟩ := hall
      have hfn' : f n = none := Option.not_isSome_iff_eq_none.mp hfn
      obtain ⟨e, he⟩ := resolveToolsPhase2_err f _ ⟨n, hn, hfn'⟩
      rw [he]
      dsimp only
      constructor
      · constructor
        · intro _
          have hmem := List.mem_filter.mp hn
          refine ⟨f, rfl, n, hmem.1, ?_, hfn'⟩
          simpa using hmem.2
        · intro _
          exact ⟨e, rfl⟩
      · intro out hout
        simp at hout

/-- C6 witness: a registry holding `a`, a resolver answering `b`, and the
tools list `["a", "b"]`. -/
theorem js_resolve_tools_partition_witness :
    c6Base.tools = some ["a", "b"] ∧ ResolveToolsSpec c6Reg c6Re c6Base ["a", "b"] :=
  ⟨rfl, js_resolve_tools_partition c6Reg c6Re c6Base ["a", "b"] rfl⟩

end JsEnv
